import Mathlib

/-!
Verification of the dragoman text-replacement core (Go package `text`).

The Go source is shallowly embedded as follows:

* Go strings are byte sequences: `Str := List Nat` (each element a byte value).
* `Range` is `[2]uint` (64-bit); fields are `Nat`s and every use-site applies
  the reduction modulo `2^64` exactly where Go's machine arithmetic does
  (`wrap` for `uint` values, `toInt64` for Go's `int(u)` conversion).
* Fallible functions return explicit result types.  A Go runtime panic
  (out-of-bounds string slice) is the distinguished result `Res.panicked`,
  different from a returned error.
* `Extract` is the source's `Extract` specialised to an in-memory
  `strings.Reader` (which is what `ExtractString` constructs): seeking to a
  nonnegative position always succeeds, seeking to a negative position
  (Go `int64(r[0])` is negative when `r[0] ≥ 2^63`) fails with a wrapped
  seek error, reading at or past the end yields EOF, and `bufio.ReadRune`
  decodes UTF-8 one rune at a time, consuming a single byte and producing
  U+FFFD on invalid encodings, exactly as Go's `utf8.DecodeRune`.
-/

namespace Dragoman

/-- Byte strings: a Go `string` as its byte sequence. -/
abbrev Str := List Nat

/-- `2^64`, the modulus of Go's 64-bit `uint`. -/
def U64 : Nat := 18446744073709551616

/-- `2^63`, the first `uint` value that is negative as a Go `int`. -/
def T63 : Nat := 9223372036854775808

/-- The value of a Go `uint` holding `n` (reduction modulo `2^64`). -/
def uval (n : Nat) : Nat := n % U64

/-- Go's conversion `int(u)` of a 64-bit `uint`: two's-complement
reinterpretation. -/
def toInt64 (n : Nat) : Int :=
  if n % U64 < T63 then ((n % U64 : Nat) : Int) else ((n % U64 : Nat) : Int) - (U64 : Int)

/-- The `uint` value of an integer expression computed with wrap-around
(e.g. Go's `uint(off)` conversion and `uint` addition). -/
def wrap (i : Int) : Nat := (i % (U64 : Int)).toNat

/-- `type Range [2]uint` — start and end offsets `[start, end)` of a text.
`r[0]` is `start`, `r[1]` is `stop`. -/
structure Range where
  start : Nat
  stop : Nat
deriving DecidableEq

/-- `func (r Range) Len() int { return int(r[1] - r[0]) }` — `uint`
subtraction wraps modulo `2^64`, then the result is reinterpreted as `int`. -/
def Range.Len (r : Range) : Int :=
  toInt64 (wrap ((r.stop : Int) - (r.start : Int)))

/-- `type RangeError struct { Range Range; Message string }`. -/
structure RangeError where
  range : Range
  message : String
deriving DecidableEq

/-- Errors `Extract` can return: a `*RangeError`, or the wrapped
`strings.Reader.Seek` error for a negative seek position. -/
inductive ExtractError where
  | rangeError : RangeError → ExtractError
  | seekError : Nat → ExtractError
deriving DecidableEq

/-- Result of `Extract`: the extracted string or an error. -/
inductive ExtractResult where
  | ok : Str → ExtractResult
  | error : ExtractError → ExtractResult
deriving DecidableEq

/-- Errors returned by `Replace`/`ReplaceMany`: a `*RangeError`, or an error
wrapped with `fmt.Errorf` context (as in `ReplaceMany`'s "extract text: %w"). -/
inductive GoErr where
  | rangeError : RangeError → GoErr
  | wrapped : String → ExtractError → GoErr
deriving DecidableEq

/-- Result of `Replace`/`ReplaceMany`: a value, a returned error, or a Go
runtime panic (out-of-bounds string slice). -/
inductive Res (α : Type) where
  | ok : α → Res α
  | err : GoErr → Res α
  | panicked : Res α
deriving DecidableEq

/-- Lower bound of Go `utf8`'s accept range for the second byte, given the
lead byte (`utf8.acceptRanges`). -/
def accLo (b0 : Nat) : Nat :=
  if b0 = 0xE0 then 0xA0 else if b0 = 0xF0 then 0x90 else 0x80

/-- Upper bound of Go `utf8`'s accept range for the second byte, given the
lead byte (`utf8.acceptRanges`). -/
def accHi (b0 : Nat) : Nat :=
  if b0 = 0xED then 0x9F else if b0 = 0xF4 then 0x8F else 0xBF

/-- One step of Go's `bufio.ReadRune` on a nonempty buffer `b0 :: rest`:
returns the decoded rune and its byte size.  Invalid encodings consume one
byte and produce `U+FFFD` (`utf8.RuneError`), as `utf8.DecodeRune` does. -/
def decodeRune1 (b0 : Nat) (rest : List Nat) : Nat × Nat :=
  if b0 < 0x80 then (b0, 1)
  else if b0 < 0xC2 then (0xFFFD, 1)
  else if b0 ≤ 0xDF then
    match rest with
    | b1 :: _ =>
      if accLo b0 ≤ b1 ∧ b1 ≤ accHi b0 then
        ((b0 - 0xC0) * 0x40 + (b1 - 0x80), 2)
      else (0xFFFD, 1)
    | [] => (0xFFFD, 1)
  else if b0 ≤ 0xEF then
    match rest with
    | b1 :: b2 :: _ =>
      if (accLo b0 ≤ b1 ∧ b1 ≤ accHi b0) ∧ (0x80 ≤ b2 ∧ b2 ≤ 0xBF) then
        ((b0 - 0xE0) * 0x1000 + (b1 - 0x80) * 0x40 + (b2 - 0x80), 3)
      else (0xFFFD, 1)
    | _ => (0xFFFD, 1)
  else if b0 ≤ 0xF4 then
    match rest with
    | b1 :: b2 :: b3 :: _ =>
      if (accLo b0 ≤ b1 ∧ b1 ≤ accHi b0) ∧ (0x80 ≤ b2 ∧ b2 ≤ 0xBF) ∧ (0x80 ≤ b3 ∧ b3 ≤ 0xBF) then
        ((b0 - 0xF0) * 0x40000 + (b1 - 0x80) * 0x1000 + (b2 - 0x80) * 0x40 + (b3 - 0x80), 4)
      else (0xFFFD, 1)
    | _ => (0xFFFD, 1)
  else (0xFFFD, 1)

/-- `bufio.ReadRune`: `none` is `io.EOF` (empty buffer), otherwise the
decoded rune with its byte size. -/
def decodeRune : List Nat → Option (Nat × Nat)
  | [] => none
  | b0 :: rest => some (decodeRune1 b0 rest)

/-- The loop `for l := rangeLen; l > 0; l--` of `Extract`: read `n` runes
from `bs`.  `inl runes` on success; `inr k` when EOF is hit after reading
`k` runes. -/
def readRunes : List Nat → Nat → (List Nat ⊕ Nat)
  | _, 0 => Sum.inl []
  | bs, n+1 =>
    match decodeRune bs with
    | none => Sum.inr 0
    | some (ru, sz) =>
      match readRunes (bs.drop sz) n with
      | Sum.inl rs => Sum.inl (ru :: rs)
      | Sum.inr k => Sum.inr (k + 1)

/-- Go's UTF-8 encoding of one rune (`utf8.EncodeRune`; invalid runes
encode as `U+FFFD`). -/
def encodeRune (r : Nat) : List Nat :=
  if r < 0x80 then [r]
  else if r < 0x800 then [0xC0 + r / 0x40, 0x80 + r % 0x40]
  else if 0xD800 ≤ r ∧ r ≤ 0xDFFF then [0xEF, 0xBF, 0xBD]
  else if r < 0x10000 then [0xE0 + r / 0x1000, 0x80 + (r / 0x40) % 0x40, 0x80 + r % 0x40]
  else if r ≤ 0x10FFFF then
    [0xF0 + r / 0x40000, 0x80 + (r / 0x1000) % 0x40, 0x80 + (r / 0x40) % 0x40, 0x80 + r % 0x40]
  else [0xEF, 0xBF, 0xBD]

/-- Go's `string(runes)`: concatenate the UTF-8 encodings. -/
def encodeRunes (rs : List Nat) : Str :=
  rs.foldr (fun r acc => encodeRune r ++ acc) []

/-- The message `fmt.Sprintf("range start (pos %d) after input end", r[0])`
(the probe-read failure in `Extract`; the source formats only the position). -/
def startPastMsg (pos : Nat) : String :=
  "range start (pos " ++ toString pos ++ ") after input end"

/-- The message
`fmt.Sprintf("range end (pos %d) after input end (pos %d)", r[1], r[0]+uint(rangeLen-l))`. -/
def endPastMsg (stopPos pos : Nat) : String :=
  "range end (pos " ++ toString stopPos ++ ") after input end (pos " ++ toString pos ++ ")"

/-- The message
`fmt.Sprintf("range [%d, %d) out of bounds [%d, %d)", r[0], r[1], 0, tlen)`. -/
def oobMsg (startPos stopPos tlen : Nat) : String :=
  "range [" ++ toString startPos ++ ", " ++ toString stopPos ++ ") out of bounds [0, "
    ++ toString tlen ++ ")"

/-- `func Extract(input io.ReadSeeker, r Range) (string, error)`, specialised
to the in-memory reader `strings.NewReader(input)`:

1. `rangeLen == 0` returns `""`;
2. `rangeLen < 0` returns a negative-length `RangeError`;
3. `input.Seek(int64(r[0]), io.SeekStart)` fails (wrapped seek error) iff
   `int64(r[0])` is negative, i.e. `r[0] ≥ 2^63`;
4. the one-byte probe read fails with EOF iff `r[0]` is at or past the end,
   producing the "range start ... after input end" `RangeError`;
5. otherwise `rangeLen` runes are decoded starting at byte offset `r[0]`;
   hitting EOF after `k` runes produces the "range end ... after input end"
   `RangeError`, else the runes are re-encoded (`string(runes)`). -/
def Extract (input : Str) (r : Range) : ExtractResult :=
  if r.Len = 0 then .ok []
  else if r.Len < 0 then .error (.rangeError ⟨r, "negative length range"⟩)
  else if T63 ≤ uval r.start then .error (.seekError (uval r.start))
  else if input.length ≤ uval r.start then
    .error (.rangeError ⟨r, startPastMsg (uval r.start)⟩)
  else
    match readRunes (input.drop (uval r.start)) r.Len.toNat with
    | Sum.inr k => .error (.rangeError ⟨r, endPastMsg (uval r.stop) (wrap ((r.start : Int) + k))⟩)
    | Sum.inl rs => .ok (encodeRunes rs)

/-- `func ExtractString(input string, r Range) (string, error)` —
`Extract(strings.NewReader(input), r)`. -/
def ExtractString (input : Str) (r : Range) : ExtractResult :=
  Extract input r

/-- `func Replace(text, repl string, r Range) (string, error)`:
the length-only precondition check, then the splice
`text[:r[0]] + repl + text[r[1]:]` (panics when an index exceeds
`len(text)`). -/
def Replace (text repl : Str) (r : Range) : Res Str :=
  if r.Len > (text.length : Int) then
    .err (.rangeError ⟨r, oobMsg (uval r.start) (uval r.stop) text.length⟩)
  else if uval r.start ≤ text.length ∧ uval r.stop ≤ text.length then
    .ok (text.take (uval r.start) ++ repl ++ text.drop (uval r.stop))
  else .panicked

/-- `Replacement` — a `Range` plus the replacement text. -/
structure Replacement where
  range : Range
  text : Str
deriving DecidableEq

/-- The loop-local `type offset struct { start uint; offset int }` of
`ReplaceMany`. -/
structure OffsetEntry where
  start : Nat
  offset : Int
deriving DecidableEq

/-- The inner loop of `ReplaceMany`:
`for _, offset := range offsets { if offset.start <= repl.Range[0] { off += offset.offset } }`. -/
def sumOffsets (offsets : List OffsetEntry) (s : Nat) : Int :=
  offsets.foldl (fun acc o => if o.start ≤ uval s then acc + o.offset else acc) 0

/-- The left splice index `int(repl.Range[0]) + off`. -/
def spliceA (repl : Replacement) (offsets : List OffsetEntry) : Int :=
  toInt64 repl.range.start + sumOffsets offsets repl.range.start

/-- The right splice index `int(repl.Range[1]) + off`. -/
def spliceB (repl : Replacement) (offsets : List OffsetEntry) : Int :=
  toInt64 repl.range.stop + sumOffsets offsets repl.range.start

/-- Ledger update of `ReplaceMany`: append
`offset{start: repl.Range[1] + uint(off), offset: lenDiff}` when
`lenDiff != 0`. -/
def nextOffsets (repl : Replacement) (offsets : List OffsetEntry) (orgText : Str) :
    List OffsetEntry :=
  if (repl.text.length : Int) - (orgText.length : Int) ≠ 0 then
    offsets ++ [⟨wrap ((repl.range.stop : Int) + sumOffsets offsets repl.range.start),
      (repl.text.length : Int) - (orgText.length : Int)⟩]
  else offsets

/-- The loop body of `ReplaceMany`.  Per iteration, in source order:
compute `off`; splice
`output[:int(repl.Range[0])+off] + repl.Text + output[int(repl.Range[1])+off:]`
(a Go panic when a slice index is negative or exceeds `len(output)`);
then `ExtractString(input, repl.Range)` — an error aborts with the wrapped
"extract text" error; finally record the length delta when nonzero. -/
def replaceManyLoop (input : Str) :
    List Replacement → Str → List OffsetEntry → Res Str
  | [], output, _ => .ok output
  | repl :: rest, output, offsets =>
    if 0 ≤ spliceA repl offsets ∧ spliceA repl offsets ≤ (output.length : Int) ∧
        0 ≤ spliceB repl offsets ∧ spliceB repl offsets ≤ (output.length : Int) then
      match ExtractString input repl.range with
      | .error e => .err (.wrapped "extract text" e)
      | .ok orgText =>
        replaceManyLoop input rest
          (output.take (spliceA repl offsets).toNat ++ repl.text ++
            output.drop (spliceB repl offsets).toNat)
          (nextOffsets repl offsets orgText)
    else .panicked

/-- `func ReplaceMany(input string, replacements ...Replacement) (string, error)`. -/
def ReplaceMany (input : Str) (repls : List Replacement) : Res Str :=
  replaceManyLoop input repls input []

/-- `true` iff an extraction succeeded. -/
def ExtractResult.isOk : ExtractResult → Bool
  | .ok _ => true
  | .error _ => false

/-- The `Range` carried by an extraction's `RangeError`, when there is one. -/
def rangeErrRange : ExtractResult → Option Range
  | .error (.rangeError e) => some e.range
  | _ => none

/-- The decoded rune sequence of a byte string (spec-side helper: the
"rune positions" of the source).  Fuel-driven; `decodeRune` consumes at
least one byte per step, so `bs.length` fuel always suffices. -/
def runesOfAux : Nat → List Nat → List Nat
  | 0, _ => []
  | fuel + 1, bs =>
    match decodeRune bs with
    | none => []
    | some (ru, sz) => ru :: runesOfAux fuel (bs.drop (max sz 1))

/-- All runes of a byte string, in order. -/
def runesOf (bs : List Nat) : List Nat := runesOfAux bs.length bs

/-- Byte-span length delta of one replacement, as produced by the splice:
`len(repl.Text) - (int(r[1]) - int(r[0]))`. -/
def spanDelta (repl : Replacement) : Int :=
  (repl.text.length : Int) + toInt64 repl.range.start - toInt64 repl.range.stop

/-- `true` iff a `Replace`/`ReplaceMany` call returned an error (as opposed
to succeeding or panicking). -/
def Res.isErr {α : Type} : Res α → Bool
  | .err _ => true
  | _ => false

/-- C1 counterexample.  Document `"éa"` (bytes `[195,169,97]`), one
replacement `{Range{0,1} → "X"}`.  The splice removes the single byte at
offset 0, so the output has 3 bytes; but the text extracted from the
pristine document at `[0,1)` is the 2-byte rune `"é"`, so the claimed
formula `len(doc) + (len(text) - len(original))` gives `3 + (1 - 2) = 2 ≠ 3`.
The claim's length-conservation equation is false on multi-byte content. -/
theorem replaceMany_length_claim_cex :
    ReplaceMany [195, 169, 97] [⟨⟨0, 1⟩, [88]⟩] = Res.ok [88, 169, 97] ∧
    Extract [195, 169, 97] ⟨0, 1⟩ = .ok [195, 169] ∧
    (([88, 169, 97] : Str).length : Int) ≠
      (([195, 169, 97] : Str).length : Int) +
        ((([88] : Str).length : Int) - (([195, 169] : Str).length : Int)) := by
  decide

/-- C2 counterexample.  Document `"éab"` (bytes `[195,169,97,98]`),
replacements `{Range{0,1} → "X"}` and `{Range{2,3} → "Y"}`: the ranges are
disjoint (`1 ≤ 2`) and within the document's bounds (`3 ≤ 4`), yet the two
orders give different outputs (`"XYab"` vs `[88,169,89,98]`), because the
offset ledger records the extracted text's byte length (2 for `"é"`) while
the splice removed only `end - start = 1` byte. -/
theorem replaceMany_order_claim_cex :
    ReplaceMany [195, 169, 97, 98] [⟨⟨0, 1⟩, [88]⟩, ⟨⟨2, 3⟩, [89]⟩] = Res.ok [88, 89, 97, 98] ∧
    ReplaceMany [195, 169, 97, 98] [⟨⟨2, 3⟩, [89]⟩, ⟨⟨0, 1⟩, [88]⟩] = Res.ok [88, 169, 89, 98] ∧
    Res.ok ([88, 89, 97, 98] : Str) ≠ Res.ok ([88, 169, 89, 98] : Str) := by
  decide

/-- C3 counterexample.  Document `"éX"` (bytes `[195,169,88]`), replacement
`{Range{0,3} → "ZZ"}`: `Replace` succeeds (its check `Len() > len(text)` is
`3 > 3`, false; the byte splice is in bounds), but `ReplaceMany` returns the
wrapped extraction error, because decoding 3 runes from the 3-byte document
hits EOF after 2 runes (`"é"` spans two bytes).  So `ReplaceMany(doc, r)`
errs where `Replace(doc, r.Text, r.Range)` returns a value. -/
theorem replaceMany_single_claim_cex :
    (ReplaceMany [195, 169, 88] [⟨⟨0, 3⟩, [90, 90]⟩]).isErr = true ∧
    Replace [195, 169, 88] [90, 90] ⟨0, 3⟩ = Res.ok [90, 90] := by
  decide

/-- C4 counterexample.  Source `"éa"` followed by nothing: bytes
`[195,169,97]`, whose decoded rune sequence is `[é, a]` (2 runes).  For
`Range{2,3}` the code seeks to *byte* offset 2 and returns the rune `"a"`
found there; under the claim's reading (offsets are rune positions) the
runes at rune indices `[2,3)` of the 2-rune source do not exist (the slice
is empty).  Offsets are byte positions at the range start, not rune
positions. -/
theorem extract_rune_position_claim_cex :
    Extract [195, 169, 97] ⟨2, 3⟩ = .ok [97] ∧
    runesOf [195, 169, 97] = [233, 97] ∧
    encodeRunes (((runesOf [195, 169, 97]).drop 2).take 1) = [] ∧
    ([97] : Str) ≠ ([] : Str) := by
  decide

/-- C5 counterexample.  `Replace("abcdef", "X", Range{5,2})`: the range's
length is `int(2-5) = -3`, which is not `> 6`, so the precondition check
passes and `Replace` returns `text[:5] + "X" + text[2:] = "abcdeXcdef"` with
no error at all — it does not fail with a RangeError on a negative-length
range. -/
theorem replace_negative_range_claim_cex :
    (Range.mk 5 2).Len < 0 ∧
    Replace [97, 98, 99, 100, 101, 102] [88] ⟨5, 2⟩ =
      Res.ok [97, 98, 99, 100, 101, 88, 99, 100, 101, 102] := by
  decide

/-- C7 counterexample.  `Range{2^63, 2^63+1}` has `Len() = 1 > 0` and its
end exceeds the 1-byte text's length, but `Extract` does not fail with a
RangeError: `int64(r[0])` is negative, so `strings.Reader.Seek` fails and
the wrapped seek error is returned instead. -/
theorem extract_past_end_claim_cex :
    0 < (Range.mk T63 (T63 + 1)).Len ∧
    ([97] : Str).length < (T63 + 1) % U64 ∧
    ∀ e : RangeError,
      Extract [97] (Range.mk T63 (T63 + 1)) ≠ .error (.rangeError e) := by
  refine ⟨by decide, by decide, fun e h => ?_⟩
  have hx : Extract [97] (Range.mk T63 (T63 + 1)) = .error (.seekError T63) := by decide
  rw [hx] at h
  simp at h

/-- C8: `Replace`'s precondition compares only the range's *length* against
the document: for document `"abc"` and `Range{4,5}` (which lies entirely
beyond the document, `3 ≤ 4`, with length `1`, `0 < 1 ≤ 3`) the check
passes — no RangeError — and the splice `text[:4]` indexes out of bounds
(a Go runtime panic). -/
theorem replace_bounds_gap :
    ¬ ((Range.mk 4 5).Len > (([97, 98, 99] : Str).length : Int)) ∧
    0 < (Range.mk 4 5).Len ∧ (Range.mk 4 5).Len ≤ (([97, 98, 99] : Str).length : Int) ∧
    ([97, 98, 99] : Str).length ≤ 4 ∧
    Replace [97, 98, 99] [88] ⟨4, 5⟩ = Res.panicked := by
  decide

/-- C9 counterexample.  Document `"abc"`, single replacement
`{Range{0,5} → "X"}`: extracting `[0,5)` from the pristine document fails
(range end past input end), but `ReplaceMany` does not *return an error* —
the splice `output[0+0:]`/`output[5+0:]` panics out of bounds before the
extraction runs.  The claim's "returns an error" is what fails; no
partially-applied output is returned either way. -/
theorem replaceMany_error_return_claim_cex :
    (Extract [97, 98, 99] ⟨0, 5⟩).isOk = false ∧
    ReplaceMany [97, 98, 99] [⟨⟨0, 5⟩, [88]⟩] = Res.panicked ∧
    (ReplaceMany [97, 98, 99] [⟨⟨0, 5⟩, [88]⟩]).isErr = false := by
  decide

/-- C10: the splice of the working string precedes validation.  For the
all-ASCII input `"abcd"` and the single replacement `{Range{1,7} → "Z"}`
(`7 > 4 = len(input)`), `ReplaceMany` panics at the slice
`output[int(7)+0:]` — an out-of-bounds access — even though extraction of
that range from the same input would have reported a RangeError naming the
range. -/
theorem replaceMany_splice_before_validate :
    ReplaceMany [97, 98, 99, 100] [⟨⟨1, 7⟩, [90]⟩] = Res.panicked ∧
    rangeErrRange (Extract [97, 98, 99, 100] ⟨1, 7⟩) = some ⟨1, 7⟩ ∧
    (∀ b ∈ ([97, 98, 99, 100] : Str), b < 128) ∧
    ([97, 98, 99, 100] : Str).length < 7 := by
  decide

/-- C6: a zero-length range extracts to the empty string with no error,
whatever the input and wherever the range starts — the `rangeLen == 0`
test is the first thing `Extract` does. -/
theorem extract_zero_length (input : Str) (r : Range) (h : r.Len = 0) :
    Extract input r = .ok [] := by
  unfold Extract
  rw [if_pos h]

/-- C6 witness: `Range{7,7}` starts past the end of the 1-byte input and
still extracts `""`. -/
theorem extract_zero_length_witness : Extract [97] ⟨7, 7⟩ = .ok [] :=
  extract_zero_length [97] ⟨7, 7⟩ (by decide)

theorem toInt64_small {n : Nat} (h : n < T63) : toInt64 n = n := by
  have h64 : n < U64 := lt_of_lt_of_le h (by decide)
  simp [toInt64, Nat.mod_eq_of_lt h64, h]

theorem uval_small {n : Nat} (h : n < U64) : uval n = n := by
  simp [uval, Nat.mod_eq_of_lt h]

theorem wrap_small {i : Int} (h0 : 0 ≤ i) (h : i < (U64 : Int)) : wrap i = i.toNat := by
  simp [wrap, Int.emod_eq_of_lt h0 h]

/-- For in-range offsets, `Len` is the plain difference. -/
theorem len_eq_sub {s e : Nat} (hse : s ≤ e) (he : e < T63) :
    (Range.mk s e).Len = (e : Int) - s := by
  show toInt64 (wrap ((e : Int) - s)) = (e : Int) - s
  unfold toInt64 wrap U64 T63 at *
  split_ifs <;> omega

/-- For a positive-length range whose start `uint` is a nonnegative `int64`,
the end `uint` sits exactly `Len` bytes after the start. -/
theorem uval_stop_eq {r : Range} (hs : uval r.start < T63) (h0 : 0 < r.Len) :
    uval r.stop = uval r.start + r.Len.toNat ∧ r.Len.toNat < T63 := by
  have : r.Len = toInt64 (wrap ((r.stop : Int) - (r.start : Int))) := rfl
  rw [this] at h0 ⊢
  unfold toInt64 wrap uval U64 T63 at *
  split_ifs at * <;> omega

/-- `decodeRune1` consumes between 1 byte and all available bytes. -/
theorem decodeRune1_sz (b0 : Nat) (rest : List Nat) :
    1 ≤ (decodeRune1 b0 rest).2 ∧ (decodeRune1 b0 rest).2 ≤ rest.length + 1 := by
  unfold decodeRune1
  rcases rest with _ | ⟨b1, _ | ⟨b2, _ | ⟨b3, rest⟩⟩⟩ <;>
    · dsimp only
      split_ifs <;> simp

/-- A successful rune walk reads exactly `n` runes and needs at least `n`
bytes. -/
theorem readRunes_inl {bs : List Nat} {n : Nat} {rs : List Nat}
    (h : readRunes bs n = Sum.inl rs) : n ≤ bs.length ∧ rs.length = n := by
  induction n generalizing bs rs with
  | zero =>
    simp only [readRunes] at h
    cases h
    simp
  | succ n ih =>
    cases bs with
    | nil => simp [readRunes, decodeRune] at h
    | cons b0 rest =>
      simp only [readRunes, decodeRune] at h
      rcases hrec : readRunes ((b0 :: rest).drop (decodeRune1 b0 rest).2) n with rs' | k <;>
        rw [hrec] at h
      · cases h
        obtain ⟨h1, h2⟩ := ih hrec
        have hsz := decodeRune1_sz b0 rest
        simp only [List.length_drop, List.length_cons] at h1
        constructor
        · simp only [List.length_cons]
          omega
        · simp [h2]
      · cases h

/-- Fewer bytes than requested runes: the walk hits EOF. -/
theorem readRunes_short {bs : List Nat} {n : Nat} (h : bs.length < n) :
    ∃ k, readRunes bs n = Sum.inr k := by
  induction n generalizing bs with
  | zero => omega
  | succ n ih =>
    cases bs with
    | nil => exact ⟨0, by simp [readRunes, decodeRune]⟩
    | cons b0 rest =>
      have hsz := decodeRune1_sz b0 rest
      have hlt : ((b0 :: rest).drop (decodeRune1 b0 rest).2).length < n := by
        simp only [List.length_drop, List.length_cons]
        simp only [List.length_cons] at h
        omega
      obtain ⟨k, hk⟩ := ih hlt
      exact ⟨k + 1, by simp [readRunes, decodeRune, hk]⟩

/-- On ASCII bytes the rune walk is the identity on the first `n` bytes. -/
theorem readRunes_ascii {bs : List Nat} {n : Nat} (ha : ∀ b ∈ bs, b < 128)
    (hn : n ≤ bs.length) : readRunes bs n = Sum.inl (bs.take n) := by
  induction n generalizing bs with
  | zero => simp [readRunes]
  | succ n ih =>
    cases bs with
    | nil => simp at hn
    | cons b0 rest =>
      have hb : b0 < 128 := ha b0 (by simp)
      have hd : decodeRune1 b0 rest = (b0, 1) := by
        unfold decodeRune1
        rw [if_pos (by omega)]
      simp only [readRunes, decodeRune, hd, List.drop_succ_cons, List.drop_zero]
      rw [ih (fun b hb' => ha b (by simp [hb'])) (by simpa using hn)]
      simp

theorem encodeRune_ascii {r : Nat} (h : r < 128) : encodeRune r = [r] := by
  unfold encodeRune
  rw [if_pos (by omega)]

theorem encodeRunes_ascii {rs : List Nat} (h : ∀ x ∈ rs, x < 128) :
    encodeRunes rs = rs := by
  induction rs with
  | nil => rfl
  | cons r rest ih =>
    simp only [encodeRunes, List.foldr_cons] at *
    rw [encodeRune_ascii (h r (by simp)), ih (fun x hx => h x (by simp [hx]))]
    simp

theorem runesOfAux_ascii {fuel : Nat} {bs : List Nat} (ha : ∀ b ∈ bs, b < 128)
    (hf : bs.length ≤ fuel) : runesOfAux fuel bs = bs := by
  induction fuel generalizing bs with
  | zero =>
    have : bs = [] := by
      cases bs
      · rfl
      · simp at hf
    simp [this, runesOfAux]
  | succ fuel ih =>
    cases bs with
    | nil => simp [runesOfAux, decodeRune]
    | cons b0 rest =>
      have hd : decodeRune1 b0 rest = (b0, 1) := by
        unfold decodeRune1
        rw [if_pos (by have := ha b0 (by simp); omega)]
      simp only [runesOfAux, decodeRune, hd, Nat.max_self, List.drop_succ_cons,
        List.drop_zero]
      rw [ih (fun b hb' => ha b (by simp [hb'])) (by simpa using hf)]

theorem runesOf_ascii {bs : List Nat} (ha : ∀ b ∈ bs, b < 128) : runesOf bs = bs :=
  runesOfAux_ascii ha le_rfl

/-- C5 amended: `Extract` rejects a negative-length range with the
"negative length range" RangeError, but `Replace` performs no such check:
its `Len() > len(text)` test is false for every negative length, so on a
negative-length range whose two offsets are within bounds `Replace`
*succeeds*, returning the overlapping splice `text[:r[0]]+repl+text[r[1]:]`
(and panics rather than erroring when an offset is out of bounds). -/
theorem negative_range_behavior (input t : Str) (r : Range) (h : r.Len < 0) :
    Extract input r = .error (.rangeError ⟨r, "negative length range"⟩) ∧
    (uval r.start ≤ input.length → uval r.stop ≤ input.length →
      Replace input t r =
        Res.ok (input.take (uval r.start) ++ t ++ input.drop (uval r.stop))) := by
  constructor
  · unfold Extract
    rw [if_neg (by omega), if_pos h]
  · intro h1 h2
    unfold Replace
    have hnn : (0 : Int) ≤ (input.length : Int) := by positivity
    rw [if_neg (by omega), if_pos ⟨h1, h2⟩]

/-- C5 witness: `Replace("abcdef", "X", Range{5,2})` really does return the
overlapping splice with no error, while `Extract` rejects the same range. -/
theorem negative_range_behavior_witness :
    Extract [97, 98, 99, 100, 101, 102] ⟨5, 2⟩ =
      .error (.rangeError ⟨⟨5, 2⟩, "negative length range"⟩) ∧
    (uval 5 ≤ ([97, 98, 99, 100, 101, 102] : Str).length →
      uval 2 ≤ ([97, 98, 99, 100, 101, 102] : Str).length →
      Replace [97, 98, 99, 100, 101, 102] [88] ⟨5, 2⟩ =
        Res.ok (([97, 98, 99, 100, 101, 102] : Str).take (uval 5) ++ [88] ++
          ([97, 98, 99, 100, 101, 102] : Str).drop (uval 2))) :=
  negative_range_behavior [97, 98, 99, 100, 101, 102] [88] ⟨5, 2⟩ (by decide)

/-- C7 amended: for a range with positive length whose end exceeds the
text's length, *provided the start offset is representable as a nonnegative
`int64`* (`r[0] < 2^63`; otherwise the seek fails first, see the
counterexample), `ExtractString` fails with a RangeError carrying the
range; and when the start is inside the text (so decoding begins), the
message is exactly the "range end (pos …) after input end (pos …)" message
reporting the range end and the truncation position. -/
theorem extract_past_end_range_error (text : Str) (r : Range)
    (h63 : uval r.start < T63) (h0 : 0 < r.Len) (hpast : text.length < uval r.stop) :
    (∃ e : RangeError, ExtractString text r = .error (.rangeError e) ∧ e.range = r) ∧
    (uval r.start < text.length →
      ∃ p, ExtractString text r = .error (.rangeError ⟨r, endPastMsg (uval r.stop) p⟩)) := by
  obtain ⟨hstop, hT⟩ := uval_stop_eq h63 h0
  unfold ExtractString Extract
  rw [if_neg (by omega), if_neg (by omega), if_neg (by omega)]
  by_cases hsl : text.length ≤ uval r.start
  · rw [if_pos hsl]
    exact ⟨⟨_, rfl, rfl⟩, fun hcon => absurd hcon (by omega)⟩
  · rw [if_neg hsl]
    have hshort : (text.drop (uval r.start)).length < r.Len.toNat := by
      simp only [List.length_drop]
      omega
    obtain ⟨k, hk⟩ := readRunes_short hshort
    simp only [hk]
    exact ⟨⟨_, rfl, rfl⟩, fun _ => ⟨_, rfl⟩⟩

/-- C7 witness: `ExtractString("ab", Range{1,5})` fails with a RangeError
carrying the range, with the end-past-input message. -/
theorem extract_past_end_range_error_witness :
    (∃ e : RangeError, ExtractString [97, 98] ⟨1, 5⟩ = .error (.rangeError e) ∧
      e.range = ⟨1, 5⟩) ∧
    (uval 1 < ([97, 98] : Str).length →
      ∃ p, ExtractString [97, 98] ⟨1, 5⟩ =
        .error (.rangeError ⟨⟨1, 5⟩, endPastMsg (uval 5) p⟩)) :=
  extract_past_end_range_error [97, 98] ⟨1, 5⟩ (by decide) (by decide) (by decide)

/-- C4 amended: `Range` offsets are *byte* offsets at the range start; the
span's interior is then walked rune-by-rune, `end - start` runes being
decoded.  On an all-ASCII source (where byte positions and rune positions
coincide) the claim's reading is recovered: the result is exactly the
runes at rune indices `[start, end)` of the decoded source. -/
theorem extract_byte_offset_rune_walk (input : Str) (r : Range)
    (hascii : ∀ b ∈ input, b < 128) (hse : r.start ≤ r.stop)
    (hb : r.stop ≤ input.length) (hlen : input.length < T63) :
    Extract input r =
      .ok (encodeRunes (((runesOf input).drop r.start).take (r.stop - r.start))) := by
  obtain ⟨s, e⟩ := r
  dsimp only at hse hb ⊢
  have hsT : s < T63 := by omega
  have heT : e < T63 := by omega
  have hus : uval s = s := uval_small (by unfold U64 T63 at *; omega)
  have hru : runesOf input = input := runesOf_ascii hascii
  rw [hru]
  have hlen_eq : (Range.mk s e).Len = (e : Int) - s := len_eq_sub hse heT
  rcases Nat.eq_or_lt_of_le hse with heq | hlt
  · subst heq
    unfold Extract
    rw [if_pos (by omega)]
    simp [encodeRunes]
  · unfold Extract
    rw [hlen_eq, if_neg (by omega), if_neg (by omega), hus, if_neg (by omega),
      if_neg (by omega)]
    have htn : ((e : Int) - s).toNat = e - s := by omega
    rw [htn, readRunes_ascii (fun b hb' => hascii b (List.drop_subset _ _ hb'))
      (by simp only [List.length_drop]; omega)]

/-- C4 witness: extracting `[0,2)` from the ASCII source `"hi"` returns the
runes at rune indices `[0,2)`. -/
theorem extract_byte_offset_rune_walk_witness :
    Extract [104, 105] ⟨0, 2⟩ =
      .ok (encodeRunes (((runesOf [104, 105]).drop 0).take (2 - 0))) :=
  extract_byte_offset_rune_walk [104, 105] ⟨0, 2⟩ (by decide) (by decide) (by decide)
    (by decide)

theorem replaceManyLoop_ok_extract (input : Str) (repls : List Replacement) :
    ∀ (output : Str) (offsets : List OffsetEntry) (out : Str),
      replaceManyLoop input repls output offsets = Res.ok out →
      ∀ repl ∈ repls, ∃ t, ExtractString input repl.range = .ok t := by
  induction repls with
  | nil =>
    intro _ _ _ _ repl h
    simp at h
  | cons r rest ih =>
    intro output offsets out hok repl hmem
    simp only [replaceManyLoop] at hok
    split at hok
    · split at hok
      next e heq => exact Res.noConfusion hok
      next orgText heq =>
        rcases List.mem_cons.mp hmem with hcase | hcase
        · subst hcase
          exact ⟨orgText, heq⟩
        · exact ih _ _ _ hok repl hcase
    · exact Res.noConfusion hok

/-- C9 amended: `ReplaceMany` never returns a partially-applied output —
whenever it returns a result at all, every replacement's original text was
successfully extracted from the pristine input (a failing extraction makes
the call return the wrapped error, or, when the bad range makes the earlier
splice index out of bounds, panic before reaching the extraction; in no
case is a replacement silently skipped). -/
theorem replaceMany_no_partial_success (input : Str) (repls : List Replacement)
    (out : Str) (hok : ReplaceMany input repls = Res.ok out) :
    ∀ repl ∈ repls, ∃ t, ExtractString input repl.range = .ok t :=
  replaceManyLoop_ok_extract input repls input [] out hok

/-- C9 witness: a successful call certifies its replacement's extraction. -/
theorem replaceMany_no_partial_success_witness :
    ∃ t, ExtractString [97, 98] (Range.mk 0 1) = .ok t :=
  replaceMany_no_partial_success [97, 98] [⟨⟨0, 1⟩, [88]⟩] [88, 98] (by decide)
    ⟨⟨0, 1⟩, [88]⟩ (by decide)

theorem replaceManyLoop_length (input : Str) (repls : List Replacement) :
    ∀ (output : Str) (offsets : List OffsetEntry) (out : Str),
      replaceManyLoop input repls output offsets = Res.ok out →
      (out.length : Int) = output.length + (repls.map spanDelta).sum := by
  induction repls with
  | nil =>
    intro output offsets out hok
    injection hok with h
    subst h
    simp
  | cons r rest ih =>
    intro output offsets out hok
    simp only [replaceManyLoop] at hok
    split at hok
    next hcond =>
      split at hok
      next e heq => exact Res.noConfusion hok
      next orgText heq =>
        have hrec := ih _ _ _ hok
        obtain ⟨hA0, hA1, hB0, hB1⟩ := hcond
        have hlen2 : ((output.take (spliceA r offsets).toNat ++ r.text ++
            output.drop (spliceB r offsets).toNat).length : Int) =
            output.length + spanDelta r := by
          simp only [List.length_append, List.length_take, List.length_drop]
          simp only [spliceA, spliceB, spanDelta] at *
          omega
        rw [hlen2] at hrec
        simp only [List.map_cons, List.sum_cons]
        omega
    next => exact Res.noConfusion hok

/-- C1 amended: on success the output's byte length is the input's byte
length plus the sum over all replacements of
`len(text_i) - (int(end_i) - int(start_i))` — the *byte span of the range*,
which is what each splice adds and removes.  (The claim's version with the
byte length of the *extracted original text* fails on multi-byte content,
see the counterexample: extraction counts runes, so the extracted text can
be longer than the range's span.) -/
theorem replaceMany_length_conservation (input : Str) (repls : List Replacement)
    (out : Str) (hok : ReplaceMany input repls = Res.ok out) :
    (out.length : Int) = input.length + (repls.map spanDelta).sum :=
  replaceManyLoop_length input repls input [] out hok

/-- C1 witness: `ReplaceMany("ab", {Range{0,1} → "XY"})` has length
`2 + (2 - 1) = 3`. -/
theorem replaceMany_length_conservation_witness :
    (([88, 89, 98] : Str).length : Int) =
      (([97, 98] : Str).length : Int) + ([⟨⟨0, 1⟩, [88, 89]⟩].map spanDelta).sum :=
  replaceMany_length_conservation [97, 98] [⟨⟨0, 1⟩, [88, 89]⟩] [88, 89, 98] (by decide)

theorem uval_lt (n : Nat) : uval n < U64 :=
  Nat.mod_lt n (by decide)

theorem toInt64_nonneg_val {n : Nat} (h : uval n < T63) : toInt64 n = (uval n : Int) := by
  unfold toInt64 uval at *
  rw [if_pos h]

theorem toInt64_neg_val {n : Nat} (h : T63 ≤ uval n) :
    toInt64 n = (uval n : Int) - (U64 : Int) := by
  unfold toInt64 uval at *
  rw [if_neg (by omega)]

theorem len_zero_uval {r : Range} (h : r.Len = 0) : uval r.stop = uval r.start := by
  have hdef : r.Len = toInt64 (wrap ((r.stop : Int) - r.start)) := rfl
  rw [hdef] at h
  unfold toInt64 wrap uval U64 T63 at *
  split_ifs at h <;> omega

/-- One successful iteration of the `ReplaceMany` loop: in-bounds splice and
successful extraction step to the next iteration. -/
theorem replaceManyLoop_cons_ok (input : Str) (repl : Replacement)
    (rest : List Replacement) (output : Str) (offsets : List OffsetEntry) (o : Str)
    (hA0 : 0 ≤ spliceA repl offsets) (hA1 : spliceA repl offsets ≤ (output.length : Int))
    (hB0 : 0 ≤ spliceB repl offsets) (hB1 : spliceB repl offsets ≤ (output.length : Int))
    (hx : ExtractString input repl.range = .ok o) :
    replaceManyLoop input (repl :: rest) output offsets =
      replaceManyLoop input rest
        (output.take (spliceA repl offsets).toNat ++ repl.text ++
          output.drop (spliceB repl offsets).toNat)
        (nextOffsets repl offsets o) := by
  simp only [replaceManyLoop]
  rw [if_pos ⟨hA0, hA1, hB0, hB1⟩, hx]

/-- An out-of-bounds splice index panics the `ReplaceMany` loop. -/
theorem replaceManyLoop_cons_panic (input : Str) (repl : Replacement)
    (rest : List Replacement) (output : Str) (offsets : List OffsetEntry)
    (h : ¬ (0 ≤ spliceA repl offsets ∧ spliceA repl offsets ≤ (output.length : Int) ∧
      0 ≤ spliceB repl offsets ∧ spliceB repl offsets ≤ (output.length : Int))) :
    replaceManyLoop input (repl :: rest) output offsets = Res.panicked := by
  simp only [replaceManyLoop]
  rw [if_neg h]

/-- What a successful extraction tells us about the range: a nonnegative
length, and — when the length is positive — an in-bounds start offset that
is nonnegative as an `int64`, with the end offset exactly `Len` bytes
later, the whole walk staying inside the input (each decoded rune consumes
at least one byte). -/
theorem extract_ok_facts {input : Str} {r : Range} {t : Str}
    (ht : ExtractString input r = .ok t) :
    0 ≤ r.Len ∧ (0 < r.Len → uval r.start < T63 ∧ uval r.start < input.length ∧
      uval r.stop = uval r.start + r.Len.toNat ∧
      r.Len.toNat ≤ input.length - uval r.start) := by
  unfold ExtractString Extract at ht
  by_cases h0 : r.Len = 0
  · exact ⟨by omega, fun hpos => absurd h0 (by omega)⟩
  · rw [if_neg h0] at ht
    by_cases hneg : r.Len < 0
    · rw [if_pos hneg] at ht
      exact ExtractResult.noConfusion ht
    · rw [if_neg hneg] at ht
      by_cases hseek : T63 ≤ uval r.start
      · rw [if_pos hseek] at ht
        exact ExtractResult.noConfusion ht
      · rw [if_neg hseek] at ht
        by_cases hsl : input.length ≤ uval r.start
        · rw [if_pos hsl] at ht
          exact ExtractResult.noConfusion ht
        · rw [if_neg hsl] at ht
          rcases hrr : readRunes (input.drop (uval r.start)) r.Len.toNat with rs | k
          · have hle := (readRunes_inl hrr).1
            simp only [List.length_drop] at hle
            have hpos : 0 < r.Len := by omega
            obtain ⟨hstop, _⟩ := uval_stop_eq (by omega) hpos
            exact ⟨by omega, fun _ => ⟨by omega, by omega, hstop, by omega⟩⟩
          · simp only [hrr] at ht
            exact ExtractResult.noConfusion ht

/-- C3 amended: for a single replacement whose range extracts successfully
from the document, `ReplaceMany(doc, r)` and `Replace(doc, r.Text, r.Range)`
agree exactly — same output on success, and they panic together on the
out-of-bounds zero-length ranges that extraction does not probe.  (Without
the extraction hypothesis they differ: `ReplaceMany` additionally runs the
extraction and returns its error where `Replace` succeeds, or panics where
`Replace` reports the RangeError — see the counterexample.  The length
hypothesis is Go's invariant that a string's length fits in an `int`.) -/
theorem replaceMany_single_eq_replace (input : Str) (repl : Replacement)
    (hlen : input.length < T63) (hex : ∃ t, ExtractString input repl.range = .ok t) :
    ReplaceMany input [repl] = Replace input repl.text repl.range := by
  obtain ⟨t, ht⟩ := hex
  obtain ⟨hge0, hfact⟩ := extract_ok_facts ht
  have hnn : (0 : Int) ≤ (input.length : Int) := by positivity
  have hTU : T63 < U64 := by decide
  unfold ReplaceMany
  rcases eq_or_lt_of_le hge0 with h0 | hpos
  · have h0' : repl.range.Len = 0 := h0.symm
    have hstopeq : uval repl.range.stop = uval repl.range.start := len_zero_uval h0'
    by_cases hT : T63 ≤ uval repl.range.start
    · have hA : spliceA repl [] = (uval repl.range.start : Int) - (U64 : Int) := by
        simp [spliceA, sumOffsets, toInt64_neg_val hT]
      have huv := uval_lt repl.range.start
      rw [replaceManyLoop_cons_panic input repl [] input []
        (by rw [hA]; intro hc; omega)]
      unfold Replace
      rw [if_neg (by omega), if_neg (by intro hc; omega)]
    · push_neg at hT
      have hA : spliceA repl [] = (uval repl.range.start : Int) := by
        simp [spliceA, sumOffsets, toInt64_nonneg_val hT]
      have hB : spliceB repl [] = (uval repl.range.start : Int) := by
        have : toInt64 repl.range.stop = (uval repl.range.stop : Int) :=
          toInt64_nonneg_val (by omega)
        simp [spliceB, sumOffsets, this, hstopeq]
      by_cases hsl : uval repl.range.start ≤ input.length
      · rw [replaceManyLoop_cons_ok input repl [] input [] t
          (by rw [hA]; positivity) (by rw [hA]; omega)
          (by rw [hB]; positivity) (by rw [hB]; omega) ht]
        simp only [replaceManyLoop]
        unfold Replace
        rw [if_neg (by omega), if_pos ⟨hsl, by omega⟩]
        rw [hA, hB, hstopeq]
        simp
      · rw [replaceManyLoop_cons_panic input repl [] input []
          (by rw [hA]; intro hc; omega)]
        unfold Replace
        rw [if_neg (by omega), if_neg (by intro hc; omega)]
  · obtain ⟨hsT, hsl, hstop, hbytes⟩ := hfact hpos
    have hA : spliceA repl [] = (uval repl.range.start : Int) := by
      simp [spliceA, sumOffsets, toInt64_nonneg_val hsT]
    have hstopT : uval repl.range.stop < T63 := by omega
    have hB : spliceB repl [] = (uval repl.range.stop : Int) := by
      simp [spliceB, sumOffsets, toInt64_nonneg_val hstopT]
    rw [replaceManyLoop_cons_ok input repl [] input [] t
      (by rw [hA]; positivity) (by rw [hA]; omega)
      (by rw [hB]; positivity) (by rw [hB]; omega) ht]
    simp only [replaceManyLoop]
    unfold Replace
    rw [if_neg (by omega), if_pos ⟨by omega, by omega⟩]
    rw [hA, hB]
    simp

/-- C3 witness: for `doc = "hi"` and the replacement `{Range{0,1} → "Y"}`
(whose extraction succeeds), `ReplaceMany` and `Replace` coincide. -/
theorem replaceMany_single_eq_replace_witness :
    ReplaceMany [104, 105] [⟨⟨0, 1⟩, [89]⟩] =
      Replace [104, 105] [89] ⟨0, 1⟩ :=
  replaceMany_single_eq_replace [104, 105] ⟨⟨0, 1⟩, [89]⟩ (by decide)
    ⟨[104], by decide⟩

theorem sumOffsets_one (st : Nat) (d : Int) (s : Nat) (h : st ≤ uval s) :
    sumOffsets [⟨st, d⟩] s = d := by
  simp [sumOffsets, h]

theorem sumOffsets_one_gt (st : Nat) (d : Int) (s : Nat) (h : ¬ st ≤ uval s) :
    sumOffsets [⟨st, d⟩] s = 0 := by
  simp [sumOffsets, h]

set_option maxHeartbeats 1600000 in
/-- C2 amended: order-independence holds for two non-overlapping
replacements, with the earlier range entirely before the later one
(`e1 ≤ s2`) and not the degenerate case of two empty ranges at the same
point (`s1 < e2`), whose ranges are in bounds and where the earlier
replacement's extracted original text occupies exactly its range's byte
span (`len(original₁) = e1 - s1`, as for single-byte/ASCII spans — it is
that replacement's ledger entry that shifts the later splice).  The
counterexample shows the claim fails without the byte-span condition
(a multi-byte original desynchronises the ledger); two insertions at one
point (`s1 = e1 = s2 = e2`) are also order-dependent. -/
theorem replaceMany_order_independent (input t1 t2 : Str) (s1 e1 s2 e2 : Nat)
    (o1 o2 : Str)
    (hlen : input.length < T63)
    (hr1 : s1 ≤ e1) (hb1 : e1 ≤ input.length)
    (hr2 : s2 ≤ e2) (hb2 : e2 ≤ input.length)
    (hord : e1 ≤ s2) (hne : s1 < e2)
    (h1 : ExtractString input ⟨s1, e1⟩ = .ok o1) (hlen1 : o1.length = e1 - s1)
    (h2 : ExtractString input ⟨s2, e2⟩ = .ok o2) :
    ReplaceMany input [⟨⟨s1, e1⟩, t1⟩, ⟨⟨s2, e2⟩, t2⟩] =
      ReplaceMany input [⟨⟨s2, e2⟩, t2⟩, ⟨⟨s1, e1⟩, t1⟩] := by
  have hTU : T63 < U64 := by decide
  have hs1T : s1 < T63 := by omega
  have he1T : e1 < T63 := by omega
  have hs2T : s2 < T63 := by omega
  have he2T : e2 < T63 := by omega
  have hu1 : uval s1 = s1 := uval_small (by omega)
  have hu2 : uval s2 = s2 := uval_small (by omega)
  have hDval : (o1.length : Int) = (e1 : Int) - s1 := by rw [hlen1]; omega
  unfold ReplaceMany
  have hA1 : spliceA ⟨⟨s1, e1⟩, t1⟩ [] = (s1 : Int) := by
    simp [spliceA, sumOffsets, toInt64_small hs1T]
  have hB1 : spliceB ⟨⟨s1, e1⟩, t1⟩ [] = (e1 : Int) := by
    simp [spliceB, sumOffsets, toInt64_small he1T]
  rw [replaceManyLoop_cons_ok input ⟨⟨s1, e1⟩, t1⟩ [⟨⟨s2, e2⟩, t2⟩] input [] o1
    (by rw [hA1]; omega) (by rw [hA1]; omega)
    (by rw [hB1]; omega) (by rw [hB1]; omega) h1]
  rw [hA1, hB1]
  simp only [Int.toNat_natCast]
  have hwrap_e1 : wrap ((e1 : Int) + sumOffsets [] s1) = e1 := by
    have h0 : sumOffsets [] s1 = 0 := rfl
    rw [h0, add_zero, wrap_small (by omega)
      (by exact_mod_cast (by omega : e1 < U64)), Int.toNat_natCast]
  have hsum2 : sumOffsets (nextOffsets ⟨⟨s1, e1⟩, t1⟩ [] o1) s2 =
      (t1.length : Int) - (o1.length : Int) := by
    unfold nextOffsets
    dsimp only
    by_cases hd : (t1.length : Int) - (o1.length : Int) ≠ 0
    · rw [if_pos hd]
      simp only [List.nil_append]
      rw [hwrap_e1, sumOffsets_one _ _ _ (by rw [hu2]; omega)]
    · rw [if_neg hd]
      push_neg at hd
      have h0 : sumOffsets [] s2 = 0 := rfl
      omega
  have hA2 : spliceA ⟨⟨s2, e2⟩, t2⟩ (nextOffsets ⟨⟨s1, e1⟩, t1⟩ [] o1) =
      (s2 : Int) + ((t1.length : Int) - (o1.length : Int)) := by
    simp [spliceA, hsum2, toInt64_small hs2T]
  have hB2 : spliceB ⟨⟨s2, e2⟩, t2⟩ (nextOffsets ⟨⟨s1, e1⟩, t1⟩ [] o1) =
      (e2 : Int) + ((t1.length : Int) - (o1.length : Int)) := by
    simp [spliceB, hsum2, toInt64_small he2T]
  have hout1 : (input.take s1 ++ t1 ++ input.drop e1).length =
      s1 + t1.length + (input.length - e1) := by
    rw [List.length_append, List.length_append, List.length_take, List.length_drop]
    omega
  rw [replaceManyLoop_cons_ok input ⟨⟨s2, e2⟩, t2⟩ []
    (input.take s1 ++ t1 ++ input.drop e1) (nextOffsets ⟨⟨s1, e1⟩, t1⟩ [] o1) o2
    (by rw [hA2]; omega) (by rw [hA2]; rw [hout1]; push_cast; omega)
    (by rw [hB2]; omega) (by rw [hB2]; rw [hout1]; push_cast; omega) h2]
  have hA1R : spliceA ⟨⟨s2, e2⟩, t2⟩ [] = (s2 : Int) := by
    simp [spliceA, sumOffsets, toInt64_small hs2T]
  have hB1R : spliceB ⟨⟨s2, e2⟩, t2⟩ [] = (e2 : Int) := by
    simp [spliceB, sumOffsets, toInt64_small he2T]
  rw [replaceManyLoop_cons_ok input ⟨⟨s2, e2⟩, t2⟩ [⟨⟨s1, e1⟩, t1⟩] input [] o2
    (by rw [hA1R]; omega) (by rw [hA1R]; omega)
    (by rw [hB1R]; omega) (by rw [hB1R]; omega) h2]
  rw [hA1R, hB1R]
  simp only [Int.toNat_natCast]
  have hwrap_e2 : wrap ((e2 : Int) + sumOffsets [] s2) = e2 := by
    have h0 : sumOffsets [] s2 = 0 := rfl
    rw [h0, add_zero, wrap_small (by omega)
      (by exact_mod_cast (by omega : e2 < U64)), Int.toNat_natCast]
  have hsum2R : sumOffsets (nextOffsets ⟨⟨s2, e2⟩, t2⟩ [] o2) s1 = 0 := by
    unfold nextOffsets
    dsimp only
    by_cases hd : (t2.length : Int) - (o2.length : Int) ≠ 0
    · rw [if_pos hd]
      simp only [List.nil_append]
      rw [hwrap_e2]
      exact sumOffsets_one_gt _ _ _ (by rw [hu1]; omega)
    · rw [if_neg hd]
      rfl
  have hA2R : spliceA ⟨⟨s1, e1⟩, t1⟩ (nextOffsets ⟨⟨s2, e2⟩, t2⟩ [] o2) = (s1 : Int) := by
    simp [spliceA, hsum2R, toInt64_small hs1T]
  have hB2R : spliceB ⟨⟨s1, e1⟩, t1⟩ (nextOffsets ⟨⟨s2, e2⟩, t2⟩ [] o2) = (e1 : Int) := by
    simp [spliceB, hsum2R, toInt64_small he1T]
  have hout1R : (input.take s2 ++ t2 ++ input.drop e2).length =
      s2 + t2.length + (input.length - e2) := by
    rw [List.length_append, List.length_append, List.length_take, List.length_drop]
    omega
  rw [replaceManyLoop_cons_ok input ⟨⟨s1, e1⟩, t1⟩ []
    (input.take s2 ++ t2 ++ input.drop e2) (nextOffsets ⟨⟨s2, e2⟩, t2⟩ [] o2) o1
    (by rw [hA2R]; omega) (by rw [hA2R]; rw [hout1R]; push_cast; omega)
    (by rw [hB2R]; omega) (by rw [hB2R]; rw [hout1R]; push_cast; omega) h1]
  simp only [replaceManyLoop]
  have htnA2 : ((s2 : Int) + ((t1.length : Int) - (o1.length : Int))).toNat =
      s1 + t1.length + (s2 - e1) := by omega
  have htnB2 : ((e2 : Int) + ((t1.length : Int) - (o1.length : Int))).toNat =
      s1 + t1.length + (e2 - e1) := by omega
  rw [hA2, hB2, htnA2, htnB2, hA2R, hB2R]
  simp only [Int.toNat_natCast]
  have hAlen : (input.take s1).length = s1 := by
    rw [List.length_take]
    omega
  have hA2len : (input.take s2).length = s2 := by
    rw [List.length_take]
    omega
  have htake3 : (input.take s1 ++ t1 ++ input.drop e1).take (s1 + t1.length + (s2 - e1)) =
      input.take s1 ++ t1 ++ (input.drop e1).take (s2 - e1) := by
    rw [List.append_assoc]
    rw [show s1 + t1.length + (s2 - e1) =
      (input.take s1).length + (t1.length + (s2 - e1)) by rw [hAlen]; omega]
    rw [List.take_append, List.take_append, ← List.append_assoc]
  have hdrop3 : (input.take s1 ++ t1 ++ input.drop e1).drop (s1 + t1.length + (e2 - e1)) =
      input.drop e2 := by
    rw [List.append_assoc]
    rw [show s1 + t1.length + (e2 - e1) =
      (input.take s1).length + (t1.length + (e2 - e1)) by rw [hAlen]; omega]
    rw [List.drop_append, List.drop_append, List.drop_drop]
    congr 1
    omega
  have htakeR : (input.take s2 ++ t2 ++ input.drop e2).take s1 = input.take s1 := by
    rw [List.take_append_of_le_length (by rw [List.length_append, hA2len]; omega)]
    rw [List.take_append_of_le_length (by rw [hA2len]; omega)]
    rw [List.take_take]
    congr 1
    omega
  have hdropR : (input.take s2 ++ t2 ++ input.drop e2).drop e1 =
      (input.drop e1).take (s2 - e1) ++ t2 ++ input.drop e2 := by
    rw [List.drop_append_of_le_length (by rw [List.length_append, hA2len]; omega)]
    rw [List.drop_append_of_le_length (by rw [hA2len]; omega)]
    rw [List.drop_take]
  rw [htake3, hdrop3, htakeR, hdropR]
  simp [List.append_assoc]

/-- C2 witness: `"abcdef"` with the single-byte-span replacements
`{Range{1,2} → "XY"}` and `{Range{3,5} → "Z"}` in either order. -/
theorem replaceMany_order_independent_witness :
    ReplaceMany [97, 98, 99, 100, 101, 102] [⟨⟨1, 2⟩, [88, 89]⟩, ⟨⟨3, 5⟩, [90]⟩] =
      ReplaceMany [97, 98, 99, 100, 101, 102] [⟨⟨3, 5⟩, [90]⟩, ⟨⟨1, 2⟩, [88, 89]⟩] :=
  replaceMany_order_independent [97, 98, 99, 100, 101, 102] [88, 89] [90] 1 2 3 5
    [98] [100, 101] (by decide) (by decide) (by decide) (by decide) (by decide)
    (by decide) (by decide) (by decide) (by decide) (by decide)

end Dragoman
